import Mathlib

/-!
# Computer_Vision_Cpp: document warper and plate detector

A shallow embedding of the integer and list logic of `warper.cpp`
(`getContours`' selection loop, `reorder`, the crop rectangle of `main`) and of
`plateRecognition.cpp` (the file names written per frame), with the properties
of the specification proved or refuted over it.

Conventions of the embedding.

* `int` is the 32-bit two's-complement type.  A value of type `int` is an `Int` of the
  range `INT_MIN .. INT_MAX`; the result of `+` and `-` on `int`s is reduced into that
  range modulo `2^32` (`wrapInt`).
* `cv::Point` is a pair of `int`s.
* `double` values are rational numbers (every finite `double` is one); the conversion to
  `int` is `doubleToInt`.
* `std::vector<T>` is `List T`.  `operator[]` past the end is undefined behaviour
  in C++; a function that performs such a read returns `none`.
* The image-processing primitives of the vision library (`findContours`,
  `contourArea`, `approxPolyDP`, `getPerspectiveTransform`, `warpPerspective`,
  `detectMultiScale`) are not modelled: the functions below take what those
  primitives return (areas, approximated polygons, detected regions) as input.
-/

namespace Warper

/-- Smallest value of the type `int`. -/
def INT_MIN : Int := -2147483648

/-- Largest value of the type `int`. -/
def INT_MAX : Int := 2147483647

/-- The `int` that an operation on `int`s yields when its exact result is `z`: the value of
the range `INT_MIN .. INT_MAX` that differs from `z` by a multiple of `2^32`. -/
def wrapInt (z : Int) : Int :=
  (z + 2147483648) % 4294967296 - 2147483648

/-- The integer part of `a`, rounding toward zero. -/
def truncate (a : ℚ) : Int :=
  if 0 ≤ a then ⌊a⌋ else ⌈a⌉

/-- The conversion of a `double` to `int`, as in `int area = contourArea(contours[i])`: the
fractional part is discarded (rounding toward zero).  C++ defines the conversion only when
the result fits in `int`; outside of that range the embedding gives `INT_MIN`, the value
the x86 conversion instruction yields. -/
def doubleToInt (a : ℚ) : Int :=
  if INT_MIN ≤ truncate a ∧ truncate a ≤ INT_MAX then truncate a else INT_MIN

/-- The type `cv::Point`: integer pixel coordinates. -/
structure Point where
  x : Int
  y : Int
deriving DecidableEq, Repr

/-- The type `cv::Rect`: top-left corner, width and height. -/
structure Rect where
  x : Int
  y : Int
  width : Int
  height : Int
deriving DecidableEq, Repr

/-- Loop of `std::min_element` after the first element: `best` is the index of the
smallest element so far, `bestVal` its value, `i` the index of the head of the rest.
The candidate replaces the current one only when strictly smaller
(`if (*first < *smallest) smallest = first;`). -/
def minElementLoop (best : Nat) (bestVal : Int) (i : Nat) : List Int → Nat
  | [] => best
  | v :: vs =>
    if v < bestVal then minElementLoop i v (i + 1) vs
    else minElementLoop best bestVal (i + 1) vs

/-- The call `min_element(v.begin(), v.end()) - v.begin()`: index of the first smallest
element (`0`, which is `end() - begin()`, on the empty vector). -/
def min_element : List Int → Nat
  | [] => 0
  | v :: vs => minElementLoop 0 v 1 vs

/-- Loop of `std::max_element` after the first element: the candidate replaces the
current one only when strictly larger (`if (*largest < *first) largest = first;`). -/
def maxElementLoop (best : Nat) (bestVal : Int) (i : Nat) : List Int → Nat
  | [] => best
  | v :: vs =>
    if bestVal < v then maxElementLoop i v (i + 1) vs
    else maxElementLoop best bestVal (i + 1) vs

/-- The call `max_element(v.begin(), v.end()) - v.begin()`: index of the first largest
element. -/
def max_element : List Int → Nat
  | [] => 0
  | v :: vs => maxElementLoop 0 v 1 vs

/-- The function `reorder` of `warper.cpp`.  The loop reads `points[0]` to `points[3]`
and pushes the `int`s `x + y` and `x - y`; the four results are `points` at the index of
the minimum sum, the maximum difference, the minimum difference and the maximum sum.
Any read past the end of `points` gives `none`. -/
def reorder (points : List Point) : Option (List Point) := do
  let read ← (List.range 4).mapM (fun i => points[i]?)
  let sumPoints := read.map (fun p => wrapInt (p.x + p.y))
  let subPoints := read.map (fun p => wrapInt (p.x - p.y))
  let p0 ← points[min_element sumPoints]?
  let p1 ← points[max_element subPoints]?
  let p2 ← points[min_element subPoints]?
  let p3 ← points[max_element sumPoints]?
  pure [p0, p1, p2, p3]

/-- One contour as the selection loop of `getContours` sees it: `area` is the `double`
that `contourArea(contours[i])` returns (the enclosed area), `conPoly` is the polygon
`conPoly[i]` written by `approxPolyDP`. -/
structure Contour where
  area : ℚ
  conPoly : List Point
deriving DecidableEq, Repr

/-- Body of the `for` loop of `getContours` on the state `(biggest, maxArea)`; the `int`
variable `area` holds `doubleToInt c.area`. -/
def selectStep (st : List Point × Int) (c : Contour) : List Point × Int :=
  if doubleToInt c.area > st.2 ∧ c.conPoly.length = 4 then
    (c.conPoly.take 4, doubleToInt c.area)
  else st

/-- The selection loop of `getContours`: starts from `biggest = {}` and `maxArea = 0`,
visits the contours in order and returns `biggest`. -/
def getContours (contours : List Contour) : List Point :=
  (contours.foldl selectStep ([], 0)).1

/-- Target width `w` of `warper.cpp` (a `float` holding the integer 420). -/
def w : Int := 420

/-- Target height `h` of `warper.cpp` (a `float` holding the integer 596). -/
def h : Int := 596

/-- The constant `int cropVal = 5` of `main`. -/
def cropVal : Int := 5

/-- The rectangle `Rect roi(cropVal, cropVal, w - (2 * cropVal), h - (2 * cropVal))` of
`main`.  All values are small integers, exactly representable as `float`, so the
conversion back to `int` is exact. -/
def cropRect (w h cropVal : Int) : Rect :=
  { x := cropVal, y := cropVal, width := w - 2 * cropVal, height := h - 2 * cropVal }

/-- The bounds check that the vision library's `Mat::operator()(const Rect&)` asserts for
a region of an image with `cols` columns and `rows` rows. -/
def roiInside (roi : Rect) (cols rows : Int) : Bool :=
  decide (0 ≤ roi.x) && decide (0 ≤ roi.width) && decide (roi.x + roi.width ≤ cols) &&
  decide (0 ≤ roi.y) && decide (0 ≤ roi.height) && decide (roi.y + roi.height ≤ rows)

/-- How a run of `main` of `warper.cpp` ends.  `descriptiveFailure` is an error the
program reports itself; `outOfBoundsRead` is a read of `points[i]` past the end of the
vector; `warped` is a completed run with the points given to `getWarp` and the crop
rectangle. -/
inductive Outcome where
  | descriptiveFailure (msg : String)
  | outOfBoundsRead
  | warped (docPoints : List Point) (roi : Rect)
deriving DecidableEq, Repr

/-- The function `getWarp` as far as its reads of `points` go: it reads `points[0]` to
`points[3]` and hands them to the perspective solver. -/
def getWarp (points : List Point) : Option (List Point) :=
  (List.range 4).mapM (fun i => points[i]?)

/-- The pipeline of `main` of `warper.cpp` from the contours on: `getContours`, `reorder`,
`getWarp`, crop.  The source has no branch that reports an error. -/
def main (contours : List Contour) : Outcome :=
  let initialPoints := getContours contours
  match reorder initialPoints with
  | none => Outcome.outOfBoundsRead
  | some docPoints =>
    match getWarp docPoints with
    | none => Outcome.outOfBoundsRead
    | some src => Outcome.warped src (cropRect w h cropVal)

/-! ### Predicates used to state the properties of `reorder` -/

/-- The sum `x + y` and the difference `x - y` of the point are values of the type `int`,
so that `reorder` computes them without overflow. -/
@[reducible] def sumsFit (q : Point) : Prop :=
  INT_MIN ≤ q.x + q.y ∧ q.x + q.y ≤ INT_MAX ∧ INT_MIN ≤ q.x - q.y ∧ q.x - q.y ≤ INT_MAX

/-- Whether point `a` attains the minimum of `x + y` over `p`. -/
def attainsMinSum (p : List Point) (a : Point) : Bool :=
  p.all (fun q => decide (a.x + a.y ≤ q.x + q.y))

/-- Whether point `a` attains the maximum of `x + y` over `p`. -/
def attainsMaxSum (p : List Point) (a : Point) : Bool :=
  p.all (fun q => decide (q.x + q.y ≤ a.x + a.y))

/-- Whether point `a` attains the minimum of `x - y` over `p`. -/
def attainsMinSub (p : List Point) (a : Point) : Bool :=
  p.all (fun q => decide (a.x - a.y ≤ q.x - q.y))

/-- Whether point `a` attains the maximum of `x - y` over `p`. -/
def attainsMaxSub (p : List Point) (a : Point) : Bool :=
  p.all (fun q => decide (q.x - q.y ≤ a.x - a.y))

end Warper

namespace PlateRecognition

/-- The file name `"plate_" + to_string(i) + ".png"` given to `imwrite` for region `i`. -/
def plateFileName (i : Nat) : String :=
  "plate_" ++ Nat.repr i ++ ".png"

/-- The `for` loop over the regions of one frame: region `i` is cropped and written under
`plateFileName i`; the result lists the writes in order (file name, region cropped). -/
def frameWrites (plates : List Warper.Rect) : List (String × Warper.Rect) :=
  (List.range plates.length).zipWith (fun i r => (plateFileName i, r)) plates

/-- A finite prefix of the `while (true)` loop: one list of detected regions per frame;
the writes of all iterations in order. -/
def loopWrites (frames : List (List Warper.Rect)) : List (String × Warper.Rect) :=
  (frames.map frameWrites).flatten

/-! ### The files on disk and the reading of decimal numerals -/

/-- Value of a decimal digit character (`0` for any other character). -/
def digitValue (c : Char) : Nat :=
  if c = '0' then 0 else if c = '1' then 1 else if c = '2' then 2 else if c = '3' then 3
  else if c = '4' then 4 else if c = '5' then 5 else if c = '6' then 6 else if c = '7' then 7
  else if c = '8' then 8 else if c = '9' then 9 else 0

/-- Reads a list of decimal digits back as a number, most significant digit first. -/
def readDecimal (acc : Nat) (cs : List Char) : Nat :=
  cs.foldl (fun a c => a * 10 + digitValue c) acc

/-- The files on disk after a sequence of `imwrite` calls: each write replaces what the
file of that name held. -/
def applyWrites (fs : String → Option Warper.Rect) (writes : List (String × Warper.Rect)) :
    String → Option Warper.Rect :=
  writes.foldl (fun fs wr => fun name => if name = wr.1 then some wr.2 else fs name) fs

end PlateRecognition

/-! ## Properties of the document warper -/

namespace Warper

/-- When the rest of `l` from index `i` on is `v :: vs`, index `i` is in range, holds `v`, and
the rest from `i + 1` on is `vs`. -/
theorem drop_cons_facts {l : List Int} {i : Nat} {v : Int} {vs : List Int}
    (hd : l.drop i = v :: vs) : l[i]? = some v ∧ l.drop (i + 1) = vs ∧ i < l.length := by
  have hi : i < l.length := by
    by_contra hcon
    rw [List.drop_eq_nil_of_le (by omega)] at hd
    cases hd
  rw [List.drop_eq_getElem_cons hi] at hd
  injection hd with h1 h2
  refine ⟨?_, h2, hi⟩
  rw [List.getElem?_eq_getElem hi, h1]

/-- Invariant of the loop of `min_element` over the vector `l`: if `best` holds a value that
is smallest among the first `i` elements and strictly smaller than everything before
`best`, the index returned has the same property over all of `l`. -/
theorem minElementLoop_spec (l : List Int) :
    ∀ (vs : List Int) (best i : Nat) (bestVal : Int),
      l.drop i = vs → best < i → l[best]? = some bestVal →
      (∀ (j : Nat) (u : Int), j < i → l[j]? = some u → bestVal ≤ u) →
      (∀ (j : Nat) (u : Int), j < best → l[j]? = some u → bestVal < u) →
      ∃ rv, l[minElementLoop best bestVal i vs]? = some rv ∧
        (∀ (j : Nat) (u : Int), l[j]? = some u → rv ≤ u) ∧
        (∀ (j : Nat) (u : Int), j < minElementLoop best bestVal i vs → l[j]? = some u → rv < u) := by
  intro vs
  induction vs with
  | nil =>
    intro best i bestVal hd hb hv hle hlt
    refine ⟨bestVal, hv, ?_, hlt⟩
    intro j u hj
    have hlen : l.length ≤ i := by
      by_contra hcon
      have := List.drop_eq_nil_iff.mp hd
      omega
    have hjl : j < l.length := by
      by_contra hcon
      rw [List.getElem?_eq_none (by omega)] at hj
      cases hj
    exact hle j u (by omega) hj
  | cons v vs ih =>
    intro best i bestVal hd hb hv hle hlt
    obtain ⟨hiv, hd', hi⟩ := drop_cons_facts hd
    unfold minElementLoop
    split
    · rename_i hlt'
      apply ih i (i + 1) v hd' (by omega) hiv
      · intro j u hj hju
        rcases Nat.lt_succ_iff_lt_or_eq.mp hj with h1 | h1
        · have := hle j u h1 hju; omega
        · subst h1; rw [hiv] at hju; injection hju with e; omega
      · intro j u hj hju
        have := hle j u hj hju; omega
    · rename_i hge
      apply ih best (i + 1) bestVal hd' (by omega) hv
      · intro j u hj hju
        rcases Nat.lt_succ_iff_lt_or_eq.mp hj with h1 | h1
        · exact hle j u h1 hju
        · subst h1; rw [hiv] at hju; injection hju with e; omega
      · exact hlt

/-- Invariant of the loop of `max_element` over the vector `l`, the mirror image of the one
of `min_element`. -/
theorem maxElementLoop_spec (l : List Int) :
    ∀ (vs : List Int) (best i : Nat) (bestVal : Int),
      l.drop i = vs → best < i → l[best]? = some bestVal →
      (∀ (j : Nat) (u : Int), j < i → l[j]? = some u → u ≤ bestVal) →
      (∀ (j : Nat) (u : Int), j < best → l[j]? = some u → u < bestVal) →
      ∃ rv, l[maxElementLoop best bestVal i vs]? = some rv ∧
        (∀ (j : Nat) (u : Int), l[j]? = some u → u ≤ rv) ∧
        (∀ (j : Nat) (u : Int), j < maxElementLoop best bestVal i vs → l[j]? = some u → u < rv) := by
  intro vs
  induction vs with
  | nil =>
    intro best i bestVal hd hb hv hle hlt
    refine ⟨bestVal, hv, ?_, hlt⟩
    intro j u hj
    have hlen : l.length ≤ i := by
      by_contra hcon
      have := List.drop_eq_nil_iff.mp hd
      omega
    have hjl : j < l.length := by
      by_contra hcon
      rw [List.getElem?_eq_none (by omega)] at hj
      cases hj
    exact hle j u (by omega) hj
  | cons v vs ih =>
    intro best i bestVal hd hb hv hle hlt
    obtain ⟨hiv, hd', hi⟩ := drop_cons_facts hd
    unfold maxElementLoop
    split
    · rename_i hlt'
      apply ih i (i + 1) v hd' (by omega) hiv
      · intro j u hj hju
        rcases Nat.lt_succ_iff_lt_or_eq.mp hj with h1 | h1
        · have := hle j u h1 hju; omega
        · subst h1; rw [hiv] at hju; injection hju with e; omega
      · intro j u hj hju
        have := hle j u hj hju; omega
    · rename_i hge
      apply ih best (i + 1) bestVal hd' (by omega) hv
      · intro j u hj hju
        rcases Nat.lt_succ_iff_lt_or_eq.mp hj with h1 | h1
        · exact hle j u h1 hju
        · subst h1; rw [hiv] at hju; injection hju with e; omega
      · exact hlt

/-- On a non-empty vector `min_element` returns the index of the first smallest element. -/
theorem min_element_spec (l : List Int) (hl : l ≠ []) :
    ∃ rv, l[min_element l]? = some rv ∧
      (∀ (j : Nat) (u : Int), l[j]? = some u → rv ≤ u) ∧
      (∀ (j : Nat) (u : Int), j < min_element l → l[j]? = some u → u > rv) := by
  cases l with
  | nil => exact absurd rfl hl
  | cons v vs =>
    have := minElementLoop_spec (v :: vs) vs 0 1 v rfl (by omega) (by simp)
      (by
        intro j u hj hju
        have : j = 0 := by omega
        subst this
        simp at hju; omega)
      (by intro j u hj; omega)
    simpa [min_element] using this

/-- On a non-empty vector `max_element` returns the index of the first largest element. -/
theorem max_element_spec (l : List Int) (hl : l ≠ []) :
    ∃ rv, l[max_element l]? = some rv ∧
      (∀ (j : Nat) (u : Int), l[j]? = some u → u ≤ rv) ∧
      (∀ (j : Nat) (u : Int), j < max_element l → l[j]? = some u → u < rv) := by
  cases l with
  | nil => exact absurd rfl hl
  | cons v vs =>
    have := maxElementLoop_spec (v :: vs) vs 0 1 v rfl (by omega) (by simp)
      (by
        intro j u hj hju
        have : j = 0 := by omega
        subst this
        simp at hju; omega)
      (by intro j u hj; omega)
    simpa [max_element] using this

/-- The point at the index `min_element` finds in the list of keys `f` of the points. -/
theorem min_element_map (f : Point → Int) (p : List Point) (hp : p ≠ []) :
    ∃ a, p[min_element (p.map f)]? = some a ∧ (∀ q ∈ p, f a ≤ f q) ∧
      (∀ (j : Nat) (q : Point), j < min_element (p.map f) → p[j]? = some q → f a < f q) := by
  obtain ⟨rv, h1, h2, h3⟩ := min_element_spec (p.map f) (by simpa using hp)
  rw [List.getElem?_map] at h1
  cases hpa : p[min_element (p.map f)]? with
  | none => rw [hpa] at h1; cases h1
  | some a =>
    rw [hpa] at h1
    simp only [Option.map_some', Option.some.injEq] at h1
    refine ⟨a, rfl, ?_, ?_⟩
    · intro q hq
      obtain ⟨j, hj⟩ := List.getElem?_of_mem hq
      have := h2 j (f q) (by rw [List.getElem?_map, hj]; rfl)
      omega
    · intro j q hj hjq
      have := h3 j (f q) hj (by rw [List.getElem?_map, hjq]; rfl)
      omega

/-- The point at the index `max_element` finds in the list of keys `f` of the points. -/
theorem max_element_map (f : Point → Int) (p : List Point) (hp : p ≠ []) :
    ∃ a, p[max_element (p.map f)]? = some a ∧ (∀ q ∈ p, f q ≤ f a) ∧
      (∀ (j : Nat) (q : Point), j < max_element (p.map f) → p[j]? = some q → f q < f a) := by
  obtain ⟨rv, h1, h2, h3⟩ := max_element_spec (p.map f) (by simpa using hp)
  rw [List.getElem?_map] at h1
  cases hpa : p[max_element (p.map f)]? with
  | none => rw [hpa] at h1; cases h1
  | some a =>
    rw [hpa] at h1
    simp only [Option.map_some', Option.some.injEq] at h1
    refine ⟨a, rfl, ?_, ?_⟩
    · intro q hq
      obtain ⟨j, hj⟩ := List.getElem?_of_mem hq
      have := h2 j (f q) (by rw [List.getElem?_map, hj]; rfl)
      omega
    · intro j q hj hjq
      have := h3 j (f q) hj (by rw [List.getElem?_map, hjq]; rfl)
      omega

/-- On a vector of exactly four points the reads `points[0]` to `points[3]` succeed and give
the vector itself. -/
theorem read_four (p : List Point) (hlen : p.length = 4) :
    (List.range 4).mapM (fun i => p[i]?) = some p := by
  match p, hlen with
  | [a0, a1, a2, a3], _ => rfl

/-- In the `int` range the operations on `int`s are exact. -/
theorem wrapInt_of_fit (z : Int) (h1 : INT_MIN ≤ z) (h2 : z ≤ INT_MAX) : wrapInt z = z := by
  unfold INT_MIN at h1
  unfold INT_MAX at h2
  unfold wrapInt
  omega

/-- On four points `reorder` reads in bounds and returns the points at the first index of
the minimum `int` sum, the maximum `int` difference, the minimum `int` difference and the
maximum `int` sum. -/
theorem reorder_eq_wrapped (p : List Point) (hlen : p.length = 4) :
    ∃ a b c d ia ib ic id, reorder p = some [a, b, c, d] ∧
      p[ia]? = some a ∧ p[ib]? = some b ∧ p[ic]? = some c ∧ p[id]? = some d ∧
      (∀ q ∈ p, wrapInt (a.x + a.y) ≤ wrapInt (q.x + q.y)) ∧
      (∀ (j : Nat) (q : Point), j < ia → p[j]? = some q →
        wrapInt (a.x + a.y) < wrapInt (q.x + q.y)) ∧
      (∀ q ∈ p, wrapInt (q.x - q.y) ≤ wrapInt (b.x - b.y)) ∧
      (∀ (j : Nat) (q : Point), j < ib → p[j]? = some q →
        wrapInt (q.x - q.y) < wrapInt (b.x - b.y)) ∧
      (∀ q ∈ p, wrapInt (c.x - c.y) ≤ wrapInt (q.x - q.y)) ∧
      (∀ (j : Nat) (q : Point), j < ic → p[j]? = some q →
        wrapInt (c.x - c.y) < wrapInt (q.x - q.y)) ∧
      (∀ q ∈ p, wrapInt (q.x + q.y) ≤ wrapInt (d.x + d.y)) ∧
      (∀ (j : Nat) (q : Point), j < id → p[j]? = some q →
        wrapInt (q.x + q.y) < wrapInt (d.x + d.y)) := by
  have hp : p ≠ [] := by
    intro h0; rw [h0] at hlen; cases hlen
  obtain ⟨a, ha, ha1, ha2⟩ := min_element_map (fun q => wrapInt (q.x + q.y)) p hp
  obtain ⟨b, hb, hb1, hb2⟩ := max_element_map (fun q => wrapInt (q.x - q.y)) p hp
  obtain ⟨c, hc, hc1, hc2⟩ := min_element_map (fun q => wrapInt (q.x - q.y)) p hp
  obtain ⟨d, hd, hd1, hd2⟩ := max_element_map (fun q => wrapInt (q.x + q.y)) p hp
  refine ⟨a, b, c, d, _, _, _, _, ?_, ha, hb, hc, hd, ha1, ha2, hb1, hb2, hc1, hc2, hd1, hd2⟩
  unfold reorder
  rw [read_four p hlen]
  simp [ha, hb, hc, hd]

/-- What `reorder` returns on four points whose sums and differences fit in `int`: the
points at the first index of minimum `x + y`, of maximum `x - y`, of minimum `x - y` and of
maximum `x + y`. -/
theorem reorder_eq (p : List Point) (hlen : p.length = 4) (hfit : ∀ q ∈ p, sumsFit q) :
    ∃ a b c d ia ib ic id, reorder p = some [a, b, c, d] ∧
      p[ia]? = some a ∧ p[ib]? = some b ∧ p[ic]? = some c ∧ p[id]? = some d ∧
      (∀ q ∈ p, a.x + a.y ≤ q.x + q.y) ∧
      (∀ (j : Nat) (q : Point), j < ia → p[j]? = some q → a.x + a.y < q.x + q.y) ∧
      (∀ q ∈ p, q.x - q.y ≤ b.x - b.y) ∧
      (∀ (j : Nat) (q : Point), j < ib → p[j]? = some q → q.x - q.y < b.x - b.y) ∧
      (∀ q ∈ p, c.x - c.y ≤ q.x - q.y) ∧
      (∀ (j : Nat) (q : Point), j < ic → p[j]? = some q → c.x - c.y < q.x - q.y) ∧
      (∀ q ∈ p, q.x + q.y ≤ d.x + d.y) ∧
      (∀ (j : Nat) (q : Point), j < id → p[j]? = some q → q.x + q.y < d.x + d.y) := by
  have hsum : ∀ q ∈ p, wrapInt (q.x + q.y) = q.x + q.y := fun q hq =>
    wrapInt_of_fit _ (hfit q hq).1 (hfit q hq).2.1
  have hsub : ∀ q ∈ p, wrapInt (q.x - q.y) = q.x - q.y := fun q hq =>
    wrapInt_of_fit _ (hfit q hq).2.2.1 (hfit q hq).2.2.2
  obtain ⟨a, b, c, d, ia, ib, ic, id, hr, ha, hb, hc, hd, ha1, ha2, hb1, hb2, hc1, hc2,
    hd1, hd2⟩ := reorder_eq_wrapped p hlen
  have ma := List.getElem?_mem ha
  have mb := List.getElem?_mem hb
  have mc := List.getElem?_mem hc
  have md := List.getElem?_mem hd
  refine ⟨a, b, c, d, ia, ib, ic, id, hr, ha, hb, hc, hd, ?_, ?_, ?_, ?_, ?_, ?_, ?_, ?_⟩
  · intro q hq
    have := ha1 q hq
    rwa [hsum a ma, hsum q hq] at this
  · intro j q hj hjq
    have := ha2 j q hj hjq
    rwa [hsum a ma, hsum q (List.getElem?_mem hjq)] at this
  · intro q hq
    have := hb1 q hq
    rwa [hsub b mb, hsub q hq] at this
  · intro j q hj hjq
    have := hb2 j q hj hjq
    rwa [hsub b mb, hsub q (List.getElem?_mem hjq)] at this
  · intro q hq
    have := hc1 q hq
    rwa [hsub c mc, hsub q hq] at this
  · intro j q hj hjq
    have := hc2 j q hj hjq
    rwa [hsub c mc, hsub q (List.getElem?_mem hjq)] at this
  · intro q hq
    have := hd1 q hq
    rwa [hsum d md, hsum q hq] at this
  · intro j q hj hjq
    have := hd2 j q hj hjq
    rwa [hsum d md, hsum q (List.getElem?_mem hjq)] at this

/-- When exactly one element of `l` satisfies `P`, two elements of `l` that satisfy `P` are
equal. -/
theorem countP_one_unique {α : Type} (P : α → Bool) (l : List α) (h1 : l.countP P = 1)
    (a b : α) (ha : a ∈ l) (hb : b ∈ l) (hPa : P a = true) (hPb : P b = true) : a = b := by
  rw [List.countP_eq_length_filter, List.length_eq_one] at h1
  obtain ⟨x, hx⟩ := h1
  have ha' : a ∈ l.filter P := List.mem_filter.mpr ⟨ha, hPa⟩
  have hb' : b ∈ l.filter P := List.mem_filter.mpr ⟨hb, hPb⟩
  rw [hx, List.mem_singleton] at ha' hb'
  rw [ha', hb']

/-- Every ordering of the corners of an axis-aligned rectangle with `x0 < x1` and `y0 < y1`
whose sums and differences fit in `int` is reordered to top-left, top-right, bottom-left,
bottom-right. -/
theorem reorder_corners (x0 x1 y0 y1 : Int) (hx : x0 < x1) (hy : y0 < y1) (p : List Point)
    (hp : p.Perm [⟨x0, y0⟩, ⟨x1, y0⟩, ⟨x0, y1⟩, ⟨x1, y1⟩]) (hfit : ∀ q ∈ p, sumsFit q) :
    reorder p = some [⟨x0, y0⟩, ⟨x1, y0⟩, ⟨x0, y1⟩, ⟨x1, y1⟩] := by
  have hlen : p.length = 4 := by simpa using hp.length_eq
  have hmem : ∀ q : Point, q ∈ p ↔
      (q = ⟨x0, y0⟩ ∨ q = ⟨x1, y0⟩ ∨ q = ⟨x0, y1⟩ ∨ q = ⟨x1, y1⟩) := by
    intro q
    rw [hp.mem_iff]
    simp
  obtain ⟨a, b, c, d, ia, ib, ic, id, hr, ha, hb, hc, hd, ha1, -, hb1, -, hc1, -, hd1, -⟩ :=
    reorder_eq p hlen hfit
  have h00 := (hmem ⟨x0, y0⟩).mpr (Or.inl rfl)
  have h10 := (hmem ⟨x1, y0⟩).mpr (Or.inr (Or.inl rfl))
  have h01 := (hmem ⟨x0, y1⟩).mpr (Or.inr (Or.inr (Or.inl rfl)))
  have h11 := (hmem ⟨x1, y1⟩).mpr (Or.inr (Or.inr (Or.inr rfl)))
  have ea : a = ⟨x0, y0⟩ := by
    have := ha1 _ h00
    rcases (hmem a).mp (List.getElem?_mem ha) with e | e | e | e <;> subst e <;>
      first
      | rfl
      | (exfalso; simp only at this; omega)
  have eb : b = ⟨x1, y0⟩ := by
    have := hb1 _ h10
    rcases (hmem b).mp (List.getElem?_mem hb) with e | e | e | e <;> subst e <;>
      first
      | rfl
      | (exfalso; simp only at this; omega)
  have ec : c = ⟨x0, y1⟩ := by
    have := hc1 _ h01
    rcases (hmem c).mp (List.getElem?_mem hc) with e | e | e | e <;> subst e <;>
      first
      | rfl
      | (exfalso; simp only at this; omega)
  have ed : d = ⟨x1, y1⟩ := by
    have := hd1 _ h11
    rcases (hmem d).mp (List.getElem?_mem hd) with e | e | e | e <;> subst e <;>
      first
      | rfl
      | (exfalso; simp only at this; omega)
  rw [hr, ea, eb, ec, ed]

/-- When the sums and differences fit in `int` and no two different points of `p` attain
the same extreme, `reorder` picks the same four points on every permutation of `p`. -/
theorem reorder_perm_of_unique (p q : List Point) (hlen : p.length = 4) (hq : q.Perm p)
    (hfit : ∀ r ∈ p, sumsFit r)
    (hminSum : ∀ a ∈ p, ∀ b ∈ p, (∀ r ∈ p, a.x + a.y ≤ r.x + r.y) →
      (∀ r ∈ p, b.x + b.y ≤ r.x + r.y) → a = b)
    (hmaxSub : ∀ a ∈ p, ∀ b ∈ p, (∀ r ∈ p, r.x - r.y ≤ a.x - a.y) →
      (∀ r ∈ p, r.x - r.y ≤ b.x - b.y) → a = b)
    (hminSub : ∀ a ∈ p, ∀ b ∈ p, (∀ r ∈ p, a.x - a.y ≤ r.x - r.y) →
      (∀ r ∈ p, b.x - b.y ≤ r.x - r.y) → a = b)
    (hmaxSum : ∀ a ∈ p, ∀ b ∈ p, (∀ r ∈ p, r.x + r.y ≤ a.x + a.y) →
      (∀ r ∈ p, r.x + r.y ≤ b.x + b.y) → a = b) :
    reorder q = reorder p := by
  have hlenq : q.length = 4 := by rw [hq.length_eq, hlen]
  have hfitq : ∀ r ∈ q, sumsFit r := fun r hr => hfit r (hq.mem_iff.mp hr)
  obtain ⟨a, b, c, d, ia, ib, ic, id, hr, ha, hb, hc, hd, ha1, -, hb1, -, hc1, -, hd1, -⟩ :=
    reorder_eq p hlen hfit
  obtain ⟨a', b', c', d', ia', ib', ic', id', hr', ha', hb', hc', hd',
    ha1', -, hb1', -, hc1', -, hd1', -⟩ := reorder_eq q hlenq hfitq
  have tr : ∀ r : Point, r ∈ p → r ∈ q := fun r hr => hq.mem_iff.mpr hr
  have tr' : ∀ r : Point, r ∈ q → r ∈ p := fun r hr => hq.mem_iff.mp hr
  have ea : a' = a := hminSum a' (tr' _ (List.getElem?_mem ha')) a (List.getElem?_mem ha)
    (fun r hr => ha1' r (tr r hr)) ha1
  have eb : b' = b := hmaxSub b' (tr' _ (List.getElem?_mem hb')) b (List.getElem?_mem hb)
    (fun r hr => hb1' r (tr r hr)) hb1
  have ec : c' = c := hminSub c' (tr' _ (List.getElem?_mem hc')) c (List.getElem?_mem hc)
    (fun r hr => hc1' r (tr r hr)) hc1
  have ed : d' = d := hmaxSum d' (tr' _ (List.getElem?_mem hd')) d (List.getElem?_mem hd)
    (fun r hr => hd1' r (tr r hr)) hd1
  rw [hr, hr', ea, eb, ec, ed]

/-- C1 (counterexample): on the four points `(2147483647,1), (0,0), (5,5), (1,3)` the `int`
sum of the first point overflows to `INT_MIN`, so `reorder` returns `(2147483647,1)` as
its first point although `(0,0)` has a smaller `x + y`. -/
theorem reorder_extremes_overflow :
    ([⟨2147483647, 1⟩, ⟨0, 0⟩, ⟨5, 5⟩, ⟨1, 3⟩] : List Point).length = 4 ∧
    reorder [⟨2147483647, 1⟩, ⟨0, 0⟩, ⟨5, 5⟩, ⟨1, 3⟩] =
      some [⟨2147483647, 1⟩, ⟨2147483647, 1⟩, ⟨1, 3⟩, ⟨5, 5⟩] ∧
    ¬ ∃ a b c d, reorder [⟨2147483647, 1⟩, ⟨0, 0⟩, ⟨5, 5⟩, ⟨1, 3⟩] = some [a, b, c, d] ∧
        ∀ q ∈ ([⟨2147483647, 1⟩, ⟨0, 0⟩, ⟨5, 5⟩, ⟨1, 3⟩] : List Point),
          a.x + a.y ≤ q.x + q.y := by
  have hval : reorder [⟨2147483647, 1⟩, ⟨0, 0⟩, ⟨5, 5⟩, ⟨1, 3⟩] =
      some [⟨2147483647, 1⟩, ⟨2147483647, 1⟩, ⟨1, 3⟩, ⟨5, 5⟩] := by decide
  refine ⟨rfl, hval, ?_⟩
  rintro ⟨a, b, c, d, hr, hmin⟩
  rw [hval] at hr
  injection hr with hr
  injection hr with ha _
  subst ha
  have := hmin ⟨0, 0⟩ (by simp)
  simp only at this
  omega

/-- C1 (amended): for every list of exactly four points whose sums `x + y` and differences
`x - y` fit in `int`, `reorder` succeeds (no read past the end) and returns four points of
the input: one with minimum `x + y`, one with maximum `x - y`, one with minimum `x - y` and
one with maximum `x + y`, in this order. -/
theorem reorder_extremes (p : List Point) (hlen : p.length = 4)
    (hfit : ∀ q ∈ p, sumsFit q) :
    ∃ a b c d, reorder p = some [a, b, c, d] ∧ a ∈ p ∧ b ∈ p ∧ c ∈ p ∧ d ∈ p ∧
      (∀ q ∈ p, a.x + a.y ≤ q.x + q.y) ∧ (∀ q ∈ p, q.x - q.y ≤ b.x - b.y) ∧
      (∀ q ∈ p, c.x - c.y ≤ q.x - q.y) ∧ (∀ q ∈ p, q.x + q.y ≤ d.x + d.y) := by
  obtain ⟨a, b, c, d, ia, ib, ic, id, hr, ha, hb, hc, hd, ha1, -, hb1, -, hc1, -, hd1, -⟩ :=
    reorder_eq p hlen hfit
  exact ⟨a, b, c, d, hr, List.getElem?_mem ha, List.getElem?_mem hb, List.getElem?_mem hc,
    List.getElem?_mem hd, ha1, hb1, hc1, hd1⟩

/-- Instance of `reorder_extremes` at the points `(7,2), (1,1), (8,9), (0,6)`. -/
theorem reorder_extremes_witness :
    ([⟨7, 2⟩, ⟨1, 1⟩, ⟨8, 9⟩, ⟨0, 6⟩] : List Point).length = 4 ∧
    (∀ q ∈ ([⟨7, 2⟩, ⟨1, 1⟩, ⟨8, 9⟩, ⟨0, 6⟩] : List Point), sumsFit q) ∧
    ∃ a b c d, reorder [⟨7, 2⟩, ⟨1, 1⟩, ⟨8, 9⟩, ⟨0, 6⟩] = some [a, b, c, d] ∧
      a ∈ ([⟨7, 2⟩, ⟨1, 1⟩, ⟨8, 9⟩, ⟨0, 6⟩] : List Point) ∧
      b ∈ ([⟨7, 2⟩, ⟨1, 1⟩, ⟨8, 9⟩, ⟨0, 6⟩] : List Point) ∧
      c ∈ ([⟨7, 2⟩, ⟨1, 1⟩, ⟨8, 9⟩, ⟨0, 6⟩] : List Point) ∧
      d ∈ ([⟨7, 2⟩, ⟨1, 1⟩, ⟨8, 9⟩, ⟨0, 6⟩] : List Point) ∧
      (∀ q ∈ ([⟨7, 2⟩, ⟨1, 1⟩, ⟨8, 9⟩, ⟨0, 6⟩] : List Point), a.x + a.y ≤ q.x + q.y) ∧
      (∀ q ∈ ([⟨7, 2⟩, ⟨1, 1⟩, ⟨8, 9⟩, ⟨0, 6⟩] : List Point), q.x - q.y ≤ b.x - b.y) ∧
      (∀ q ∈ ([⟨7, 2⟩, ⟨1, 1⟩, ⟨8, 9⟩, ⟨0, 6⟩] : List Point), c.x - c.y ≤ q.x - q.y) ∧
      (∀ q ∈ ([⟨7, 2⟩, ⟨1, 1⟩, ⟨8, 9⟩, ⟨0, 6⟩] : List Point), q.x + q.y ≤ d.x + d.y) :=
  ⟨rfl, by decide, reorder_extremes [⟨7, 2⟩, ⟨1, 1⟩, ⟨8, 9⟩, ⟨0, 6⟩] rfl (by decide)⟩

/-- C2 (counterexample): for the rectangle with `x0 = 0`, `x1 = 2147483647`, `y0 = 0`,
`y1 = 1` the `int` sum of the corner `(x1, y1)` overflows to `INT_MIN`, and `reorder`
returns `(x1, y1)` instead of `(x0, y0)` as the first point. -/
theorem reorder_rectangle_overflow :
    (0 : Int) < 2147483647 ∧ (0 : Int) < 1 ∧
    List.Perm ([⟨0, 0⟩, ⟨2147483647, 0⟩, ⟨0, 1⟩, ⟨2147483647, 1⟩] : List Point)
      [⟨0, 0⟩, ⟨2147483647, 0⟩, ⟨0, 1⟩, ⟨2147483647, 1⟩] ∧
    reorder [⟨0, 0⟩, ⟨2147483647, 0⟩, ⟨0, 1⟩, ⟨2147483647, 1⟩] =
      some [⟨2147483647, 1⟩, ⟨2147483647, 0⟩, ⟨0, 1⟩, ⟨2147483647, 0⟩] ∧
    reorder [⟨0, 0⟩, ⟨2147483647, 0⟩, ⟨0, 1⟩, ⟨2147483647, 1⟩] ≠
      some [⟨0, 0⟩, ⟨2147483647, 0⟩, ⟨0, 1⟩, ⟨2147483647, 1⟩] := by
  refine ⟨by decide, by decide, List.Perm.refl _, by decide, by decide⟩

/-- C2 (amended): for `x0 < x1` and `y0 < y1`, every ordering of the four corners of the
axis-aligned rectangle whose sums `x + y` and differences `x - y` fit in `int` is
reordered to top-left, top-right, bottom-left, bottom-right. -/
theorem reorder_rectangle (x0 x1 y0 y1 : Int) (hx : x0 < x1) (hy : y0 < y1) (p : List Point)
    (hp : p.Perm [⟨x0, y0⟩, ⟨x1, y0⟩, ⟨x0, y1⟩, ⟨x1, y1⟩]) (hfit : ∀ q ∈ p, sumsFit q) :
    reorder p = some [⟨x0, y0⟩, ⟨x1, y0⟩, ⟨x0, y1⟩, ⟨x1, y1⟩] :=
  reorder_corners x0 x1 y0 y1 hx hy p hp hfit

/-- Instance of `reorder_rectangle` at the square with corners `(0,0), (10,0), (0,10), (10,10)`
given in reverse order. -/
theorem reorder_rectangle_witness :
    (0 : Int) < 10 ∧
    List.Perm ([⟨10, 10⟩, ⟨0, 10⟩, ⟨10, 0⟩, ⟨0, 0⟩] : List Point)
      [⟨0, 0⟩, ⟨10, 0⟩, ⟨0, 10⟩, ⟨10, 10⟩] ∧
    (∀ q ∈ ([⟨10, 10⟩, ⟨0, 10⟩, ⟨10, 0⟩, ⟨0, 0⟩] : List Point), sumsFit q) ∧
    reorder [⟨10, 10⟩, ⟨0, 10⟩, ⟨10, 0⟩, ⟨0, 0⟩] =
      some [⟨0, 0⟩, ⟨10, 0⟩, ⟨0, 10⟩, ⟨10, 10⟩] :=
  ⟨by decide, by decide, by decide,
    reorder_rectangle 0 10 0 10 (by decide) (by decide) _ (by decide) (by decide)⟩

/-- C10 (counterexample): in `(2147483647,1), (-2147483647,-1), (5,0), (0,7)` each extreme
of `x + y` and of `x - y` is attained by exactly one point, but the `int` sums of the first
two points are both `INT_MIN` after overflow, and swapping these two points changes the
first point `reorder` returns. -/
theorem reorder_order_dependent_overflow :
    ([⟨2147483647, 1⟩, ⟨-2147483647, -1⟩, ⟨5, 0⟩, ⟨0, 7⟩] : List Point).length = 4 ∧
    List.countP (attainsMinSum [⟨2147483647, 1⟩, ⟨-2147483647, -1⟩, ⟨5, 0⟩, ⟨0, 7⟩])
      [⟨2147483647, 1⟩, ⟨-2147483647, -1⟩, ⟨5, 0⟩, ⟨0, 7⟩] = 1 ∧
    List.countP (attainsMaxSum [⟨2147483647, 1⟩, ⟨-2147483647, -1⟩, ⟨5, 0⟩, ⟨0, 7⟩])
      [⟨2147483647, 1⟩, ⟨-2147483647, -1⟩, ⟨5, 0⟩, ⟨0, 7⟩] = 1 ∧
    List.countP (attainsMinSub [⟨2147483647, 1⟩, ⟨-2147483647, -1⟩, ⟨5, 0⟩, ⟨0, 7⟩])
      [⟨2147483647, 1⟩, ⟨-2147483647, -1⟩, ⟨5, 0⟩, ⟨0, 7⟩] = 1 ∧
    List.countP (attainsMaxSub [⟨2147483647, 1⟩, ⟨-2147483647, -1⟩, ⟨5, 0⟩, ⟨0, 7⟩])
      [⟨2147483647, 1⟩, ⟨-2147483647, -1⟩, ⟨5, 0⟩, ⟨0, 7⟩] = 1 ∧
    List.Perm ([⟨-2147483647, -1⟩, ⟨2147483647, 1⟩, ⟨5, 0⟩, ⟨0, 7⟩] : List Point)
      [⟨2147483647, 1⟩, ⟨-2147483647, -1⟩, ⟨5, 0⟩, ⟨0, 7⟩] ∧
    reorder [⟨2147483647, 1⟩, ⟨-2147483647, -1⟩, ⟨5, 0⟩, ⟨0, 7⟩] =
      some [⟨2147483647, 1⟩, ⟨2147483647, 1⟩, ⟨-2147483647, -1⟩, ⟨0, 7⟩] ∧
    reorder [⟨-2147483647, -1⟩, ⟨2147483647, 1⟩, ⟨5, 0⟩, ⟨0, 7⟩] =
      some [⟨-2147483647, -1⟩, ⟨2147483647, 1⟩, ⟨-2147483647, -1⟩, ⟨0, 7⟩] ∧
    reorder [⟨-2147483647, -1⟩, ⟨2147483647, 1⟩, ⟨5, 0⟩, ⟨0, 7⟩] ≠
      reorder [⟨2147483647, 1⟩, ⟨-2147483647, -1⟩, ⟨5, 0⟩, ⟨0, 7⟩] := by
  refine ⟨rfl, by decide, by decide, by decide, by decide, by decide, by decide, by decide,
    by decide⟩

/-- C10 (amended): when the sums `x + y` and differences `x - y` of the four points of `p`
fit in `int` and each of the four extremes (minimum and maximum of `x + y`, minimum and
maximum of `x - y`) is attained by exactly one of the four points, `reorder` gives the same
result on every permutation `q` of `p`. -/
theorem reorder_order_independent (p q : List Point) (hlen : p.length = 4)
    (hfit : ∀ r ∈ p, sumsFit r)
    (hminSum : p.countP (attainsMinSum p) = 1) (hmaxSum : p.countP (attainsMaxSum p) = 1)
    (hminSub : p.countP (attainsMinSub p) = 1) (hmaxSub : p.countP (attainsMaxSub p) = 1)
    (hq : q.Perm p) : reorder q = reorder p := by
  apply reorder_perm_of_unique p q hlen hq hfit
  · intro a ha b hb h1 h2
    exact countP_one_unique _ p hminSum a b ha hb
      (by simpa [attainsMinSum] using h1) (by simpa [attainsMinSum] using h2)
  · intro a ha b hb h1 h2
    exact countP_one_unique _ p hmaxSub a b ha hb
      (by simpa [attainsMaxSub] using h1) (by simpa [attainsMaxSub] using h2)
  · intro a ha b hb h1 h2
    exact countP_one_unique _ p hminSub a b ha hb
      (by simpa [attainsMinSub] using h1) (by simpa [attainsMinSub] using h2)
  · intro a ha b hb h1 h2
    exact countP_one_unique _ p hmaxSum a b ha hb
      (by simpa [attainsMaxSum] using h1) (by simpa [attainsMaxSum] using h2)

/-- Instance of `reorder_order_independent` at the points `(2,1), (9,3), (1,8), (10,11)` and
a permutation of them. -/
theorem reorder_order_independent_witness :
    ([⟨2, 1⟩, ⟨9, 3⟩, ⟨1, 8⟩, ⟨10, 11⟩] : List Point).length = 4 ∧
    (∀ r ∈ ([⟨2, 1⟩, ⟨9, 3⟩, ⟨1, 8⟩, ⟨10, 11⟩] : List Point), sumsFit r) ∧
    List.countP (attainsMinSum [⟨2, 1⟩, ⟨9, 3⟩, ⟨1, 8⟩, ⟨10, 11⟩])
      [⟨2, 1⟩, ⟨9, 3⟩, ⟨1, 8⟩, ⟨10, 11⟩] = 1 ∧
    List.countP (attainsMaxSum [⟨2, 1⟩, ⟨9, 3⟩, ⟨1, 8⟩, ⟨10, 11⟩])
      [⟨2, 1⟩, ⟨9, 3⟩, ⟨1, 8⟩, ⟨10, 11⟩] = 1 ∧
    List.countP (attainsMinSub [⟨2, 1⟩, ⟨9, 3⟩, ⟨1, 8⟩, ⟨10, 11⟩])
      [⟨2, 1⟩, ⟨9, 3⟩, ⟨1, 8⟩, ⟨10, 11⟩] = 1 ∧
    List.countP (attainsMaxSub [⟨2, 1⟩, ⟨9, 3⟩, ⟨1, 8⟩, ⟨10, 11⟩])
      [⟨2, 1⟩, ⟨9, 3⟩, ⟨1, 8⟩, ⟨10, 11⟩] = 1 ∧
    List.Perm ([⟨1, 8⟩, ⟨10, 11⟩, ⟨9, 3⟩, ⟨2, 1⟩] : List Point)
      [⟨2, 1⟩, ⟨9, 3⟩, ⟨1, 8⟩, ⟨10, 11⟩] ∧
    reorder [⟨1, 8⟩, ⟨10, 11⟩, ⟨9, 3⟩, ⟨2, 1⟩] = reorder [⟨2, 1⟩, ⟨9, 3⟩, ⟨1, 8⟩, ⟨10, 11⟩] :=
  ⟨rfl, by decide, by decide, by decide, by decide, by decide, by decide,
    reorder_order_independent [⟨2, 1⟩, ⟨9, 3⟩, ⟨1, 8⟩, ⟨10, 11⟩]
      [⟨1, 8⟩, ⟨10, 11⟩, ⟨9, 3⟩, ⟨2, 1⟩] rfl (by decide) (by decide) (by decide) (by decide)
      (by decide) (by decide)⟩

/-- C6 (counterexample): `reorder` is idempotent on its output for the points
`(0,0), (3,1), (1,3), (5,5)`, which are not the corners of any axis-aligned rectangle. -/
theorem reorder_idempotent_not_rectangle :
    (reorder [⟨0, 0⟩, ⟨3, 1⟩, ⟨1, 3⟩, ⟨5, 5⟩]).bind reorder =
      reorder [⟨0, 0⟩, ⟨3, 1⟩, ⟨1, 3⟩, ⟨5, 5⟩] ∧
    ¬ ∃ x0 x1 y0 y1 : Int, ∀ q : Point, q ∈ ([⟨0, 0⟩, ⟨3, 1⟩, ⟨1, 3⟩, ⟨5, 5⟩] : List Point) ↔
        q ∈ ([⟨x0, y0⟩, ⟨x1, y0⟩, ⟨x0, y1⟩, ⟨x1, y1⟩] : List Point) := by
  refine ⟨by decide, ?_⟩
  rintro ⟨x0, x1, y0, y1, hq⟩
  have h1 := (hq ⟨0, 0⟩).mp (by simp)
  have h2 := (hq ⟨3, 1⟩).mp (by simp)
  have h3 := (hq ⟨1, 3⟩).mp (by simp)
  simp only [List.mem_cons, Point.mk.injEq, List.mem_singleton, List.not_mem_nil,
    or_false] at h1 h2 h3
  omega

/-- C6 (amended): for `x0 < x1` and `y0 < y1` and every ordering `p` of the four corners of
the axis-aligned rectangle whose sums `x + y` and differences `x - y` fit in `int`,
applying `reorder` to the output of `reorder p` gives that output again. -/
theorem reorder_idempotent_on_rectangle (x0 x1 y0 y1 : Int) (hx : x0 < x1) (hy : y0 < y1)
    (p : List Point) (hp : p.Perm [⟨x0, y0⟩, ⟨x1, y0⟩, ⟨x0, y1⟩, ⟨x1, y1⟩])
    (hfit : ∀ q ∈ p, sumsFit q) :
    (reorder p).bind reorder = reorder p := by
  rw [reorder_corners x0 x1 y0 y1 hx hy p hp hfit, Option.some_bind]
  exact reorder_corners x0 x1 y0 y1 hx hy _ (List.Perm.refl _)
    (fun q hq => hfit q (hp.mem_iff.mpr hq))

/-- Instance of `reorder_idempotent_on_rectangle` at the rectangle with `x` in `{2, 7}` and
`y` in `{1, 4}`. -/
theorem reorder_idempotent_on_rectangle_witness :
    (2 : Int) < 7 ∧ (1 : Int) < 4 ∧
    List.Perm ([⟨7, 4⟩, ⟨2, 1⟩, ⟨2, 4⟩, ⟨7, 1⟩] : List Point)
      [⟨2, 1⟩, ⟨7, 1⟩, ⟨2, 4⟩, ⟨7, 4⟩] ∧
    (∀ q ∈ ([⟨7, 4⟩, ⟨2, 1⟩, ⟨2, 4⟩, ⟨7, 1⟩] : List Point), sumsFit q) ∧
    (reorder [⟨7, 4⟩, ⟨2, 1⟩, ⟨2, 4⟩, ⟨7, 1⟩]).bind reorder =
      reorder [⟨7, 4⟩, ⟨2, 1⟩, ⟨2, 4⟩, ⟨7, 1⟩] :=
  ⟨by decide, by decide, by decide, by decide,
    reorder_idempotent_on_rectangle 2 7 1 4 (by decide) (by decide) _ (by decide)
      (by decide)⟩

/-- C7 (failing input): on the square rotated by 45 degrees with corners
`(1,0), (2,1), (1,2), (0,1)` the function `reorder` returns `(1,0)` twice and drops `(0,1)`,
so the output is not a permutation of the input. -/
theorem reorder_diamond_not_perm :
    reorder [⟨1, 0⟩, ⟨2, 1⟩, ⟨1, 2⟩, ⟨0, 1⟩] = some [⟨1, 0⟩, ⟨1, 0⟩, ⟨1, 2⟩, ⟨2, 1⟩] ∧
    ¬ List.Perm ([⟨1, 0⟩, ⟨1, 0⟩, ⟨1, 2⟩, ⟨2, 1⟩] : List Point)
      [⟨1, 0⟩, ⟨2, 1⟩, ⟨1, 2⟩, ⟨0, 1⟩] := by
  refine ⟨by decide, by decide⟩

/-- The loop body leaves the state alone when the guard fails. -/
theorem selectStep_of_not (st : List Point × Int) (c : Contour)
    (hn : ¬ (doubleToInt c.area > st.2 ∧ c.conPoly.length = 4)) : selectStep st c = st := by
  unfold selectStep
  rw [if_neg hn]

/-- Contours without a four-vertex polygon leave the state of the selection loop unchanged. -/
theorem foldl_selectStep_of_no_four (cs : List Contour) :
    ∀ st : List Point × Int, (∀ c ∈ cs, c.conPoly.length ≠ 4) →
      cs.foldl selectStep st = st := by
  induction cs with
  | nil => intro st _; rfl
  | cons c cs ih =>
    intro st hall
    rw [List.foldl_cons, selectStep_of_not st c (fun hcon => hall c (List.mem_cons_self _ _) hcon.2)]
    exact ih st (fun c' hc' => hall c' (List.mem_cons_of_mem _ hc'))

/-- C4: when no contour has a polygon of exactly four vertices (the empty sequence
included), the selection loop returns the empty point list. -/
theorem getContours_no_quadrilateral (cs : List Contour)
    (hno : ∀ c ∈ cs, c.conPoly.length ≠ 4) : getContours cs = [] := by
  unfold getContours
  rw [foldl_selectStep_of_no_four cs _ hno]

/-- Instance of `getContours_no_quadrilateral` at a triangle and a pentagon. -/
theorem getContours_no_quadrilateral_witness :
    (∀ c ∈ [Contour.mk 30 [⟨0, 0⟩, ⟨9, 0⟩, ⟨5, 7⟩],
        Contour.mk 12 [⟨0, 0⟩, ⟨4, 0⟩, ⟨5, 2⟩, ⟨2, 4⟩, ⟨0, 2⟩]], c.conPoly.length ≠ 4) ∧
    getContours [Contour.mk 30 [⟨0, 0⟩, ⟨9, 0⟩, ⟨5, 7⟩],
        Contour.mk 12 [⟨0, 0⟩, ⟨4, 0⟩, ⟨5, 2⟩, ⟨2, 4⟩, ⟨0, 2⟩]] = [] :=
  ⟨by decide, getContours_no_quadrilateral _ (by decide)⟩

/-- C5 (counterexample): on the empty sequence of contours the selector result is empty,
`reorder` reads `points[0]` past the end, and the run of `main` ends in that
out-of-bounds read, not in a reported failure. -/
theorem main_no_contours_out_of_bounds :
    (∀ c ∈ ([] : List Contour), c.conPoly.length ≠ 4) ∧
    getContours [] = [] ∧ reorder (getContours []) = none ∧
    main [] = Outcome.outOfBoundsRead ∧
    ¬ ∃ msg, main [] = Outcome.descriptiveFailure msg := by
  refine ⟨by simp, rfl, rfl, rfl, ?_⟩
  rintro ⟨msg, hmsg⟩
  cases hmsg

/-- C5 (amended): when no contour has a four-vertex polygon, the selector result is empty,
`reorder` reads `points[0..3]` past the end of it, and the run of `main` ends in that
out-of-bounds read; no failure is reported. -/
theorem main_no_quadrilateral (cs : List Contour)
    (hno : ∀ c ∈ cs, c.conPoly.length ≠ 4) :
    getContours cs = [] ∧ reorder (getContours cs) = none ∧
    main cs = Outcome.outOfBoundsRead ∧ ∀ msg, main cs ≠ Outcome.descriptiveFailure msg := by
  have hsel : getContours cs = [] := by
    unfold getContours
    rw [foldl_selectStep_of_no_four cs _ hno]
  have hmain : main cs = Outcome.outOfBoundsRead := by
    unfold main
    simp only [hsel]
    rfl
  refine ⟨hsel, by rw [hsel]; rfl, hmain, ?_⟩
  intro msg hmsg
  rw [hmain] at hmsg
  cases hmsg

/-- Instance of `main_no_quadrilateral` at a single triangle. -/
theorem main_no_quadrilateral_witness :
    (∀ c ∈ [Contour.mk 30 [⟨0, 0⟩, ⟨9, 0⟩, ⟨5, 7⟩]], c.conPoly.length ≠ 4) ∧
    getContours [Contour.mk 30 [⟨0, 0⟩, ⟨9, 0⟩, ⟨5, 7⟩]] = [] ∧
    reorder (getContours [Contour.mk 30 [⟨0, 0⟩, ⟨9, 0⟩, ⟨5, 7⟩]]) = none ∧
    main [Contour.mk 30 [⟨0, 0⟩, ⟨9, 0⟩, ⟨5, 7⟩]] = Outcome.outOfBoundsRead ∧
    ∀ msg, main [Contour.mk 30 [⟨0, 0⟩, ⟨9, 0⟩, ⟨5, 7⟩]] ≠ Outcome.descriptiveFailure msg :=
  ⟨by decide, main_no_quadrilateral _ (by decide)⟩

/-- C8: with `w = 420`, `h = 596` and `cropVal = 5` the crop rectangle of `main` is
`(5, 5, 410, 586)`; it passes the bounds check of the `420 x 596` warped image and leaves a
margin of exactly 5 on the left, top, right and bottom. -/
theorem crop_rect_inside :
    cropRect w h cropVal = { x := 5, y := 5, width := 410, height := 586 } ∧
    roiInside (cropRect w h cropVal) w h = true ∧
    (cropRect w h cropVal).x = 5 ∧ (cropRect w h cropVal).y = 5 ∧
    w - ((cropRect w h cropVal).x + (cropRect w h cropVal).width) = 5 ∧
    h - ((cropRect w h cropVal).y + (cropRect w h cropVal).height) = 5 := by
  decide

end Warper

/-! ## Properties of the plate detector -/

namespace PlateRecognition

/-- Reading back the character of a decimal digit gives the digit. -/
theorem digitValue_digitChar (k : Nat) (hk : k < 10) : digitValue (Nat.digitChar k) = k := by
  interval_cases k <;> decide

/-- Reading back the digits `Nat.toDigitsCore` puts in front of `ds` gives the number printed,
as the accumulator for the rest `ds`. -/
theorem readDecimal_toDigitsCore (fuel : Nat) :
    ∀ (n : Nat) (ds : List Char), n < fuel →
      readDecimal 0 (Nat.toDigitsCore 10 fuel n ds) = readDecimal n ds := by
  induction fuel with
  | zero => intro n ds hn; omega
  | succ fuel ih =>
    intro n ds hn
    unfold Nat.toDigitsCore
    simp only
    split
    · rename_i h0
      have hlt : n < 10 := by omega
      have hmod : n % 10 = n := Nat.mod_eq_of_lt hlt
      simp [readDecimal, hmod, digitValue_digitChar n hlt]
    · rename_i h0
      have hdiv : n / 10 < fuel := by omega
      rw [ih (n / 10) _ hdiv]
      simp only [readDecimal, List.foldl_cons, digitValue_digitChar _ (Nat.mod_lt n (by decide))]
      rw [Nat.div_add_mod' n 10]

/-- Reading back the decimal numeral of `n` gives `n`. -/
theorem readDecimal_repr (n : Nat) : readDecimal 0 (Nat.repr n).data = n := by
  unfold Nat.repr Nat.toDigits
  simp only [List.asString]
  rw [readDecimal_toDigitsCore (n + 1) n [] (by omega)]
  rfl

/-- Different numbers have different decimal numerals. -/
theorem repr_injective (i j : Nat) (hij : Nat.repr i = Nat.repr j) : i = j := by
  have := congrArg (fun s => readDecimal 0 s.data) hij
  simpa [readDecimal_repr] using this

/-- Different region indices have different file names. -/
theorem plateFileName_injective (i j : Nat) (hij : plateFileName i = plateFileName j) :
    i = j := by
  unfold plateFileName at hij
  have h1 := congrArg String.data hij
  simp only [String.data_append] at h1
  have h2 := List.append_cancel_right h1
  have h3 := List.append_cancel_left h2
  exact repr_injective i j (String.ext h3)

/-- The write number `i` of a frame is the crop of region `i` under `plateFileName i`. -/
theorem frameWrites_getElem? (plates : List Warper.Rect) (i : Nat) (r : Warper.Rect)
    (hr : plates[i]? = some r) : (frameWrites plates)[i]? = some (plateFileName i, r) := by
  have hi : i < plates.length := by
    by_contra hcon
    rw [List.getElem?_eq_none (by omega)] at hr
    cases hr
  unfold frameWrites
  rw [List.getElem?_zipWith, List.getElem?_range hi, hr]

/-- The file names written for a frame with `n` regions are those of the indices `0` to `n - 1`. -/
theorem frameWrites_names (plates : List Warper.Rect) :
    (frameWrites plates).map Prod.fst = (List.range plates.length).map plateFileName := by
  unfold frameWrites
  apply List.ext_getElem?
  intro i
  simp only [List.getElem?_map, List.getElem?_zipWith]
  by_cases hi : i < plates.length
  · rw [List.getElem?_range hi, List.getElem?_eq_getElem hi]
    rfl
  · rw [List.getElem?_eq_none (l := plates) (by omega),
      List.getElem?_eq_none (l := List.range plates.length) (by simp; omega)]
    rfl

/-- No file name is written twice within one frame. -/
theorem frameWrites_names_nodup (plates : List Warper.Rect) :
    ((frameWrites plates).map Prod.fst).Nodup := by
  rw [frameWrites_names]
  exact List.Nodup.map (fun i j hij => plateFileName_injective i j hij) (List.nodup_range _)

/-- Writes leave the files they do not name unchanged. -/
theorem applyWrites_of_not_mem (writes : List (String × Warper.Rect)) :
    ∀ (fs : String → Option Warper.Rect) (name : String),
      name ∉ writes.map Prod.fst → applyWrites fs writes name = fs name := by
  induction writes with
  | nil => intro fs name _; rfl
  | cons wr writes ih =>
    intro fs name hn
    simp only [List.map_cons, List.mem_cons, not_or] at hn
    show applyWrites _ writes name = fs name
    rw [ih _ name hn.2]
    simp only [if_neg hn.1]

/-- After writes with pairwise different names, each file written holds what was written to it. -/
theorem applyWrites_of_mem (writes : List (String × Warper.Rect)) :
    ∀ (fs : String → Option Warper.Rect) (name : String) (r : Warper.Rect),
      (writes.map Prod.fst).Nodup → (name, r) ∈ writes →
      applyWrites fs writes name = some r := by
  induction writes with
  | nil => intro fs name r _ hm; cases hm
  | cons wr writes ih =>
    intro fs name r hnd hm
    simp only [List.map_cons, List.nodup_cons] at hnd
    show applyWrites _ writes name = some r
    rcases List.mem_cons.mp hm with h | h
    · subst h
      rw [applyWrites_of_not_mem writes _ _ hnd.1]
      simp only [if_true]
    · exact ih _ name r hnd.2 h

/-- Writing `ws1 ++ ws2` is writing `ws1`, then `ws2`. -/
theorem applyWrites_append (fs : String → Option Warper.Rect)
    (ws1 ws2 : List (String × Warper.Rect)) :
    applyWrites fs (ws1 ++ ws2) = applyWrites (applyWrites fs ws1) ws2 := by
  unfold applyWrites
  rw [List.foldl_append]

/-- The writes of the iterations `earlier ++ [plates]` are those of `earlier` followed by those
of the frame `plates`. -/
theorem loopWrites_append_singleton (earlier : List (List Warper.Rect))
    (plates : List Warper.Rect) :
    loopWrites (earlier ++ [plates]) = loopWrites earlier ++ frameWrites plates := by
  simp [loopWrites]

/-- C9: in a frame with detected regions `plates`, the crop of region `i` is written to
the file `"plate_" + decimal(i) + ".png"`; two different indices of the frame get different
file names; the name depends on the index only, so after any earlier iterations the file
of index `i` holds the crop written by the latest frame. -/
theorem plate_file_names (plates : List Warper.Rect) (i : Nat) (r : Warper.Rect)
    (hr : plates[i]? = some r) :
    (frameWrites plates).length = plates.length ∧
    (frameWrites plates)[i]? = some ("plate_" ++ Nat.repr i ++ ".png", r) ∧
    (∀ (j : Nat) (s : String × Warper.Rect), i ≠ j → (frameWrites plates)[j]? = some s →
      s.1 ≠ "plate_" ++ Nat.repr i ++ ".png") ∧
    (∀ (earlier : List (List Warper.Rect)) (fs : String → Option Warper.Rect),
      applyWrites fs (loopWrites (earlier ++ [plates])) ("plate_" ++ Nat.repr i ++ ".png") =
        some r) := by
  have hw := frameWrites_getElem? plates i r hr
  have hlen : (frameWrites plates).length = plates.length := by
    have := congrArg List.length (frameWrites_names plates)
    simpa using this
  refine ⟨hlen, hw, ?_, ?_⟩
  · intro j s hij hs hname
    have hj : j < plates.length := by
      by_contra hcon
      rw [List.getElem?_eq_none (by omega)] at hs
      cases hs
    have hs' := frameWrites_getElem? plates j plates[j] (List.getElem?_eq_getElem hj)
    rw [hs] at hs'
    injection hs' with hs'
    rw [hs'] at hname
    exact hij (plateFileName_injective i j hname.symm)
  · intro earlier fs
    rw [loopWrites_append_singleton, applyWrites_append]
    exact applyWrites_of_mem _ _ _ r (frameWrites_names_nodup plates) (List.getElem?_mem hw)

/-- Instance of `plate_file_names` at a frame with two regions, for region `1`. -/
theorem plate_file_names_witness :
    ([⟨3, 4, 50, 20⟩, ⟨60, 70, 55, 22⟩] : List Warper.Rect)[1]? = some ⟨60, 70, 55, 22⟩ ∧
    (frameWrites [⟨3, 4, 50, 20⟩, ⟨60, 70, 55, 22⟩]).length = 2 ∧
    (frameWrites [⟨3, 4, 50, 20⟩, ⟨60, 70, 55, 22⟩])[1]? = some ("plate_1.png", ⟨60, 70, 55, 22⟩) ∧
    (∀ (j : Nat) (s : String × Warper.Rect), 1 ≠ j →
      (frameWrites [⟨3, 4, 50, 20⟩, ⟨60, 70, 55, 22⟩])[j]? = some s → s.1 ≠ "plate_1.png") ∧
    (∀ (earlier : List (List Warper.Rect)) (fs : String → Option Warper.Rect),
      applyWrites fs (loopWrites (earlier ++ [[⟨3, 4, 50, 20⟩, ⟨60, 70, 55, 22⟩]]))
        "plate_1.png" = some ⟨60, 70, 55, 22⟩) :=
  ⟨rfl, plate_file_names [⟨3, 4, 50, 20⟩, ⟨60, 70, 55, 22⟩] 1 ⟨60, 70, 55, 22⟩ rfl⟩

end PlateRecognition
